/-
Verification of the geoflow well-log core against its specification.

This file gives a shallow embedding of the data model and operations of
the geoflow repository (src/geoflow/well_data.py, src/geoflow/ui/well_section.py,
src/geoflow/ui/workspace.py) and proves or refutes the specification claims
about them.  Numeric sample values are modelled as rationals; Python dicts
are modelled as insertion-ordered association lists.
-/
import Mathlib

namespace Geoflow

/-! ## Well-log data model (src/geoflow/well_data.py) -/

/-- Numeric clip as used by the source (numpy):
`np.clip(x, lo, hi) = min hi (max lo x)`. -/
def clip (x lo hi : ℚ) : ℚ := min hi (max lo x)

/-- A well as held by `WellLogData`: a name plus insertion-ordered mappings
from curve mnemonic to sample array, unit string and description string. -/
structure Well where
  name : String
  curves : List (String × List ℚ)
  units : List (String × String)
  descriptions : List (String × String)
deriving Repr, DecidableEq

/-- Embeds `WellLogData.get_curve_names`. -/
def get_curve_names (w : Well) : List String := w.curves.map Prod.fst

/-- Embeds `WellLogData.get_curve_data`: `self.curves.get(curve_name)`. -/
def get_curve_data (w : Well) (curve_name : String) : Option (List ℚ) :=
  w.curves.lookup curve_name

/-- Element-wise shale-volume formula applied by `calculate_shale_volume`:
`clip((g - gr_clean) / (gr_shale - gr_clean), 0, 1)`. -/
def vshSample (gr_clean gr_shale g : ℚ) : ℚ :=
  clip ((g - gr_clean) / (gr_shale - gr_clean)) 0 1

/-- Embeds `WellLogData.calculate_shale_volume`.  The Python method reads
`self.curves` and returns an array (or `None`); it never assigns to `self`,
which the state-passing embedding records by returning the well alongside
the result. -/
def calculate_shale_volume (w : Well) (gr_curve : String) (gr_clean gr_shale : ℚ) :
    Option (List ℚ) × Well :=
  match w.curves.lookup gr_curve with
  | none => (none, w)
  | some gr => (some (gr.map (vshSample gr_clean gr_shale)), w)

/-- Element-wise porosity formula applied by `calculate_porosity`:
`clip((matrix_density - r) / (matrix_density - fluid_density), 0, 1)`. -/
def phiSample (fluid_density matrix_density r : ℚ) : ℚ :=
  clip ((matrix_density - r) / (matrix_density - fluid_density)) 0 1

/-- Embeds `WellLogData.calculate_porosity` in the same state-passing style. -/
def calculate_porosity (w : Well) (density_curve : String) (fluid_density matrix_density : ℚ) :
    Option (List ℚ) × Well :=
  match w.curves.lookup density_curve with
  | none => (none, w)
  | some rhob => (some (rhob.map (phiSample fluid_density matrix_density)), w)

/-- Fixed candidate list scanned by `WellLogData._find_depth_curve`. -/
def depth_candidates : List String := ["DEPT", "DEPTH", "MD", "TVD"]

/-- Dict-key membership test `candidate in self.curves`. -/
def hasCurve (w : Well) (c : String) : Bool := (get_curve_names w).contains c

/-- Embeds `WellLogData._find_depth_curve`: return the first candidate
mnemonic present in the curve mapping, else `None`. -/
def find_depth_curve (w : Well) : Option String :=
  depth_candidates.find? (hasCurve w)

/-! ## Well collection (class `WellDataManager`) -/

/-- Python dict assignment `d[k] = v`: replace in place when the key exists
(keeping its position), otherwise append at the end. -/
def dict_insert {α : Type} (m : List (String × α)) (k : String) (v : α) :
    List (String × α) :=
  if m.any (fun p => p.1 == k) then
    m.map (fun p => if p.1 == k then (k, v) else p)
  else
    m ++ [(k, v)]

/-- One curve record delivered by the LAS parser (`lasio`): mnemonic, sample
data (the source guards against a missing array), unit and description. -/
structure LasCurve where
  mnemonic : String
  data : Option (List ℚ)
  unit : String
  descr : String
deriving Repr, DecidableEq

/-- Parsed LAS file content used by `load_from_las`: the optional well name
from the `WELL` header item, plus the curve records in file order. -/
structure LasFile where
  well_name : Option String
  curves : List LasCurve
deriving Repr, DecidableEq

/-- Embeds `WellLogData.load_from_las`.  The external call `lasio.read` and
its possible exceptions are modelled by the `Option LasFile` argument:
`none` is any parse failure (the `except` path, returning `False`), and
`some las` the successful parse.  `stem` is `Path(file_path).stem`, the
fallback well name. -/
def load_from_las (stem : String) (parsed : Option LasFile) : Option Well :=
  match parsed with
  | none => none
  | some las =>
      some { name := las.well_name.getD stem,
             curves := las.curves.filterMap
               (fun c => c.data.map (fun d => (c.mnemonic, d))),
             units := las.curves.map (fun c => (c.mnemonic, c.unit)),
             descriptions := las.curves.map (fun c => (c.mnemonic, c.descr)) }

/-- Embeds `WellDataManager.load_well`: build a fresh `WellLogData`, attempt
the parse, and only on success store the well into `self.wells` (a Python
dict keyed by well name) and return its name. -/
def load_well (wells : List (String × Well)) (stem : String)
    (parsed : Option LasFile) : Option String × List (String × Well) :=
  match load_from_las stem parsed with
  | some w => (some w.name, dict_insert wells w.name w)
  | none => (none, wells)

/-! ## Well-section canvas model (src/geoflow/ui/well_section.py) -/

/-- A display track (class `Track`): name, relative width, colour, and the
ordered list of assigned curve names. -/
structure Track where
  name : String
  width : ℚ
  color : String
  curves : List String
deriving Repr, DecidableEq

/-- Track constructor defaults from `Track.__init__`. -/
def Track.mk0 (name : String) (width : ℚ) (color : String) : Track :=
  { name := name, width := width, color := color, curves := [] }

/-- Default five-track layout installed by `setup_display` when the track
list is empty. -/
def default_tracks : List Track :=
  [Track.mk0 "Depth" (1/2) "black",
   Track.mk0 "GR" 1 "green",
   Track.mk0 "Resistivity" 1 "blue",
   Track.mk0 "Density" 1 "red",
   Track.mk0 "Neutron" 1 "purple"]

/-- Track-list normalisation performed by `WellSectionCanvas.setup_display`:
an empty list is replaced by the default five tracks, any other list is
kept as-is. -/
def setup_display_tracks (tracks : List Track) : List Track :=
  if tracks.isEmpty then default_tracks else tracks

/-- View state of `WellSectionCanvas` relevant to the claims: the shared
depth range and the ordered track list. -/
structure CanvasState where
  depth_range : ℚ × ℚ
  tracks : List Track
deriving Repr, DecidableEq

/-- Embeds `WellSectionCanvas.zoom_to_depth_range`: unconditionally set
`self.depth_range = (min_depth, max_depth)` (the per-axis `set_ylim` calls
are rendering only). -/
def zoom_to_depth_range (st : CanvasState) (min_depth max_depth : ℚ) : CanvasState :=
  { st with depth_range := (min_depth, max_depth) }

/-- Embeds `EnhancedWellSectionWidget.update_depth_range` after the two text
fields have parsed to numbers: only when `min_depth < max_depth` does the
widget call `zoom_to_depth_range`; otherwise it only sets the status label
("Invalid depth range") and the canvas state is untouched. -/
def update_depth_range (st : CanvasState) (min_depth max_depth : ℚ) : CanvasState :=
  if min_depth < max_depth then zoom_to_depth_range st min_depth max_depth else st

/-- Static mnemonic-to-track table of `WellSectionCanvas._get_track_for_curve`. -/
def curve_track_map : List (String × Nat) :=
  [("DEPT", 0), ("DEPTH", 0), ("MD", 0), ("TVD", 0),
   ("GR", 1), ("GR_EDTC", 1), ("CGR", 1),
   ("RT", 2), ("ILD", 2), ("LLD", 2), ("MSFL", 2), ("LLS", 2),
   ("RHOB", 3), ("RHOZ", 3), ("DRHO", 3),
   ("NPHI", 4), ("NPOR", 4), ("TNPH", 4)]

/-- Embeds `WellSectionCanvas._get_track_for_curve`:
`curve_track_map.get(curve_name, 1)`, defaulting to the gamma-ray track. -/
def get_track_for_curve (curve_name : String) : Nat :=
  (curve_track_map.lookup curve_name).getD 1

/-- Curve-plotting pass of `WellSectionCanvas.update_display`: each curve of
the well is plotted into its assigned track, except that a curve whose
assigned track index is not below the number of tracks is skipped
(`if track_idx >= len(self.tracks): continue`).  The result lists the
(curve, track index) pairs actually plotted, in iteration order. -/
def update_display_plots (tracks : List Track) (curve_names : List String) :
    List (String × Nat) :=
  curve_names.filterMap (fun c =>
    if get_track_for_curve c < tracks.length then some (c, get_track_for_curve c) else none)

/-- Embeds `WellSectionCanvas.update_display` for a bound well: runs the
plotting pass, then configures the depth track via `self.tracks[0]`, an
access that raises `IndexError` on an empty track list; the `none` result
records that failure, `some` carries the plotted pairs. -/
def update_display (st : CanvasState) (w : Well) : Option (List (String × Nat)) :=
  if st.tracks.length = 0 then none
  else some (update_display_plots st.tracks (get_curve_names w))

/-- Embeds the resize branch of `WellSectionCanvas.on_motion` while dragging
track `idx`: `width_change = delta_x * 0.01`, and when `idx` is in range the
track width becomes `max(0.1, width + width_change)`; all other fields and
tracks are untouched. -/
def on_motion_resize (tracks : List Track) (idx : Nat) (delta_x : ℚ) : List Track :=
  if h : idx < tracks.length then
    tracks.set idx
      { tracks.get ⟨idx, h⟩ with
        width := max (1/10) ((tracks.get ⟨idx, h⟩).width + delta_x * (1/100)) }
  else tracks

/-! ## Workspace persistence model (src/geoflow/ui/workspace.py)

The session state is a JSON document.  `WorkspaceState.save` serialises it
with `json.dump(state, f, indent=2, ensure_ascii=False)`, prefixed by
rendered `//` header lines when the state carries a top-level `_comment`
string; `WorkspaceState.load` strips `//` line comments and `/* */` block
comments (`_strip_json_comments`, regex based, best effort) and then parses
with `json.loads`.  The model below embeds the JSON value space used by the
session state (numbers restricted to integers; floats are out of the model),
the exact indent-2 serialisation format, a strict parser mirroring
`json.loads` (ASCII whitespace, strict control-character rejection in
strings, the standard escapes), and a character-level rendition of the two
comment-stripping regexes. -/

/-- JSON values as held by the workspace state.  Strings are kept as raw
character lists. -/
inductive Json where
  | null : Json
  | bool : Bool → Json
  | num : Int → Json
  | str : List Char → Json
  | arr : List Json → Json
  | obj : List (List Char × Json) → Json

/-- Lowercase hex digit, as used by Python's `\uXXXX` escapes. -/
def hexDigit (n : Nat) : Char :=
  if n < 10 then Char.ofNat (48 + n) else Char.ofNat (87 + n)

/-- Python `json` string escaping for `ensure_ascii=False`: quote, backslash
and the short control escapes are mapped per `ESCAPE_DCT`, any other
control character below 0x20 becomes `\u00XX`, everything else is copied
verbatim. -/
def escChar (c : Char) : List Char :=
  if c = '"' then ['\\', '"']
  else if c = '\\' then ['\\', '\\']
  else if c = '\x08' then ['\\', 'b']
  else if c = '\x0c' then ['\\', 'f']
  else if c = '\n' then ['\\', 'n']
  else if c = '\r' then ['\\', 'r']
  else if c = '\t' then ['\\', 't']
  else if c.toNat < 32 then
    ['\\', 'u', '0', '0', hexDigit (c.toNat / 16), hexDigit (c.toNat % 16)]
  else [c]

/-- Serialised JSON string: quoted, with each character escaped. -/
def encString (s : List Char) : List Char :=
  '"' :: (s.map escChar).flatten ++ ['"']

/-- Decimal digits of `n`, most significant first (`fuel ≥ n` suffices). -/
def natDigitsAux : Nat → Nat → List Char
  | 0, _ => []
  | fuel + 1, n =>
    if n = 0 then [] else natDigitsAux fuel (n / 10) ++ [Nat.digitChar (n % 10)]

/-- Decimal rendering of a natural number, as Python prints it. -/
def natRepr (n : Nat) : List Char :=
  if n = 0 then ['0'] else natDigitsAux n n

/-- Decimal rendering of an integer, as Python prints it. -/
def intRepr (n : Int) : List Char :=
  if n < 0 then '-' :: natRepr n.natAbs else natRepr n.toNat

/-- Indentation prefix at nesting level `k` for `indent=2`. -/
def indentChars (k : Nat) : List Char := List.replicate (2 * k) ' '

mutual

/-- Serialisation of a JSON value at nesting level `k`, exactly as
`json.dump(state, f, indent=2, ensure_ascii=False)` lays it out. -/
def encodeVal : Json → Nat → List Char
  | .null, _ => ['n', 'u', 'l', 'l']
  | .bool true, _ => ['t', 'r', 'u', 'e']
  | .bool false, _ => ['f', 'a', 'l', 's', 'e']
  | .num n, _ => intRepr n
  | .str s, _ => encString s
  | .arr [], _ => ['[', ']']
  | .arr (x :: xs), k =>
    '[' :: '\n' :: (indentChars (k + 1) ++ encodeVal x (k + 1) ++
      encodeArrTail xs (k + 1) ++ '\n' :: (indentChars k ++ [']']))
  | .obj [], _ => ['\x7b', '\x7d']
  | .obj (m :: ms), k =>
    '\x7b' :: '\n' :: (indentChars (k + 1) ++ encMember m (k + 1) ++
      encodeObjTail ms (k + 1) ++ '\n' :: (indentChars k ++ ['\x7d']))

/-- Serialisation of one object member: `"key": value`. -/
def encMember : List Char × Json → Nat → List Char
  | (key, v), k => encString key ++ ':' :: ' ' :: encodeVal v k

/-- Serialisation of the remaining array elements, each preceded by a comma,
a newline and the indent. -/
def encodeArrTail : List Json → Nat → List Char
  | [], _ => []
  | x :: xs, k => ',' :: '\n' :: (indentChars k ++ encodeVal x k ++ encodeArrTail xs k)

/-- Serialisation of the remaining object members. -/
def encodeObjTail : List (List Char × Json) → Nat → List Char
  | [], _ => []
  | m :: ms, k => ',' :: '\n' :: (indentChars k ++ encMember m k ++ encodeObjTail ms k)

end

/-- JSON whitespace accepted between tokens by `json.loads`. -/
def jsonWs (c : Char) : Bool :=
  c = ' ' || c = '\t' || c = '\n' || c = '\r'

/-- Skip leading JSON whitespace. -/
def skipWs : List Char → List Char
  | c :: rest => if jsonWs c then skipWs rest else c :: rest
  | [] => []

/-- Decimal digit value of a character, if it is a digit. -/
def digitVal (c : Char) : Option Nat :=
  if '0' ≤ c ∧ c ≤ '9' then some (c.toNat - 48) else none

/-- Hex digit value of a character, if it is one. -/
def hexVal (c : Char) : Option Nat :=
  if '0' ≤ c ∧ c ≤ '9' then some (c.toNat - 48)
  else if 'a' ≤ c ∧ c ≤ 'f' then some (c.toNat - 87)
  else if 'A' ≤ c ∧ c ≤ 'F' then some (c.toNat - 55)
  else none

/-- Whether the input starts with a decimal digit. -/
def headDigit : List Char → Bool
  | c :: _ => (digitVal c).isSome
  | [] => false

/-- Characters allowed to open a serialised value: not whitespace, not a
closing bracket, not a closing brace. -/
def goodHead (c : Char) : Prop :=
  jsonWs c = false ∧ c ≠ ']' ∧ c ≠ '\x7d'

instance (c : Char) : Decidable (goodHead c) := by
  unfold goodHead
  infer_instance

/-- Consume a maximal run of digits, folding them onto `acc`. -/
def parseDigits : List Char → Nat → Nat × List Char
  | c :: rest, acc =>
    match digitVal c with
    | some d => parseDigits rest (acc * 10 + d)
    | none => (acc, c :: rest)
  | [], acc => (acc, [])

/-- Parse an integer literal (optional minus sign, at least one digit).
Fractions and exponents are outside the model. -/
def parseNum : List Char → Option (Int × List Char)
  | [] => none
  | c :: rest =>
    if c = '-' then
      match rest with
      | [] => none
      | c2 :: rest2 =>
        match digitVal c2 with
        | some d => some (-(((parseDigits rest2 d).1 : Int)), (parseDigits rest2 d).2)
        | none => none
    else
      match digitVal c with
      | some d => some (((parseDigits rest d).1 : Int), (parseDigits rest d).2)
      | none => none

/-- Decode a single-character string escape, as `json.loads` accepts. -/
def unesc (e : Char) : Option Char :=
  if e = '"' then some '"'
  else if e = '\\' then some '\\'
  else if e = '/' then some '/'
  else if e = 'b' then some '\x08'
  else if e = 'f' then some '\x0c'
  else if e = 'n' then some '\n'
  else if e = 'r' then some '\r'
  else if e = 't' then some '\t'
  else none

/-- Parse a JSON string body after the opening quote, strict mode: raw
control characters are rejected, escapes are decoded, the closing quote
ends the string. -/
def parseStrBody : List Char → Option (List Char × List Char)
  | [] => none
  | c :: rest =>
    if c = '"' then some ([], rest)
    else if c = '\\' then
      match rest with
      | [] => none
      | e :: rest2 =>
        if e = 'u' then
          match rest2 with
          | h1 :: h2 :: h3 :: h4 :: rest3 =>
            match hexVal h1, hexVal h2, hexVal h3, hexVal h4 with
            | some a, some b, some c2, some d =>
              (parseStrBody rest3).map
                (fun p => (Char.ofNat (((a * 16 + b) * 16 + c2) * 16 + d) :: p.1, p.2))
            | _, _, _, _ => none
          | _ => none
        else
          match unesc e with
          | some u => (parseStrBody rest2).map (fun p => (u :: p.1, p.2))
          | none => none
    else if c.toNat < 32 then none
    else (parseStrBody rest).map (fun p => (c :: p.1, p.2))

mutual

/-- Recursive-descent JSON value parser mirroring `json.loads` (strict),
with a fuel argument for termination; callers supply fuel exceeding the
input length.  The input must already start at a token (whitespace is
skipped by callers). -/
def parseVal : Nat → List Char → Option (Json × List Char)
  | 0, _ => none
  | _ + 1, [] => none
  | fuel + 1, c :: cs =>
    if c = 'n' then
      match cs with
      | 'u' :: 'l' :: 'l' :: rest => some (.null, rest)
      | _ => none
    else if c = 't' then
      match cs with
      | 'r' :: 'u' :: 'e' :: rest => some (.bool true, rest)
      | _ => none
    else if c = 'f' then
      match cs with
      | 'a' :: 'l' :: 's' :: 'e' :: rest => some (.bool false, rest)
      | _ => none
    else if c = '"' then
      (parseStrBody cs).map (fun p => (.str p.1, p.2))
    else if c = '[' then
      if (skipWs cs).head? = some ']' then some (.arr [], (skipWs cs).tail)
      else
        match parseVal fuel (skipWs cs) with
        | some (x, r2) =>
          (match parseArrTail fuel r2 with
           | some (xs, r3) => some (.arr (x :: xs), r3)
           | none => none)
        | none => none
    else if c = '\x7b' then
      if (skipWs cs).head? = some '\x7d' then some (.obj [], (skipWs cs).tail)
      else
        match parseMember fuel (skipWs cs) with
        | some (m, r2) =>
          (match parseObjTail fuel r2 with
           | some (ms, r3) => some (.obj (m :: ms), r3)
           | none => none)
        | none => none
    else
      (parseNum (c :: cs)).map (fun p => (.num p.1, p.2))

/-- Parse one object member `"key": value`. -/
def parseMember : Nat → List Char → Option ((List Char × Json) × List Char)
  | 0, _ => none
  | _ + 1, [] => none
  | fuel + 1, c :: cs =>
    if c = '"' then
      match parseStrBody cs with
      | some (key, r2) =>
        if (skipWs r2).head? = some ':' then
          match parseVal fuel (skipWs (skipWs r2).tail) with
          | some (v, r3) => some ((key, v), r3)
          | none => none
        else none
      | none => none
    else none

/-- After one array element: a comma continues the element list, a closing
bracket ends it. -/
def parseArrTail : Nat → List Char → Option (List Json × List Char)
  | 0, _ => none
  | fuel + 1, cs =>
    if (skipWs cs).head? = some ',' then
      match parseVal fuel (skipWs (skipWs cs).tail) with
      | some (x, r2) =>
        (match parseArrTail fuel r2 with
         | some (xs, r3) => some (x :: xs, r3)
         | none => none)
      | none => none
    else if (skipWs cs).head? = some ']' then some ([], (skipWs cs).tail)
    else none

/-- After one object member: a comma continues the member list, a closing
brace ends it. -/
def parseObjTail : Nat → List Char → Option (List (List Char × Json) × List Char)
  | 0, _ => none
  | fuel + 1, cs =>
    if (skipWs cs).head? = some ',' then
      match parseMember fuel (skipWs (skipWs cs).tail) with
      | some (m, r2) =>
        (match parseObjTail fuel r2 with
         | some (ms, r3) => some (m :: ms, r3)
         | none => none)
      | none => none
    else if (skipWs cs).head? = some '\x7d' then some ([], (skipWs cs).tail)
    else none

end

/-- Whether characters `a` then `b` occur adjacently somewhere in the list
(the condition under which one of the comment regexes can match). -/
def hasPair (a b : Char) : List Char → Bool
  | x :: y :: rest => (x = a && y = b) || hasPair a b (y :: rest)
  | _ => false

/-- Scan for the first closing `*/` and return the remainder after it. -/
def dropToClose : List Char → Option (List Char)
  | [] => none
  | [_] => none
  | c1 :: c2 :: rest =>
    if c1 = '*' ∧ c2 = '/' then some rest else dropToClose (c2 :: rest)

/-- Character-level rendition of `re.sub(r"/\*.*?\*/", "", s, flags=re.S)`:
repeatedly delete from each leftmost `/*` through the nearest following
`*/`; a `/*` with no closing `*/` is left in place (the regex does not
match there).  Fuel bounds the recursion; `fuel ≥ length` suffices. -/
def blockStripF : Nat → List Char → List Char
  | 0, cs => cs
  | _ + 1, [] => []
  | _ + 1, [c] => [c]
  | fuel + 1, c1 :: c2 :: rest =>
    if c1 = '/' ∧ c2 = '*' then
      match dropToClose rest with
      | some rest2 => blockStripF fuel rest2
      | none => c1 :: c2 :: rest
    else c1 :: blockStripF fuel (c2 :: rest)

/-- Scan to the next newline (kept) or the end of input. -/
def dropToEol : List Char → List Char
  | [] => []
  | c :: rest => if c = '\n' then c :: rest else dropToEol rest

/-- Character-level rendition of `re.sub(r"//.*$", "", s, flags=re.M)`:
from each `//` delete through the end of the line (the newline itself is
kept).  Fuel bounds the recursion; `fuel ≥ length` suffices. -/
def lineStripF : Nat → List Char → List Char
  | 0, cs => cs
  | _ + 1, [] => []
  | _ + 1, [c] => [c]
  | fuel + 1, c1 :: c2 :: rest =>
    if c1 = '/' ∧ c2 = '/' then lineStripF fuel (dropToEol rest)
    else c1 :: lineStripF fuel (c2 :: rest)

/-- Embeds `_strip_json_comments`: block comments are removed first over the
whole text, then line comments per line. -/
def strip_json_comments (cs : List Char) : List Char :=
  lineStripF (blockStripF cs.length cs).length (blockStripF cs.length cs)

/-- Split a character list on newlines (every piece is newline free). -/
def splitOnNl : List Char → List (List Char)
  | [] => [[]]
  | c :: rest =>
    if c = '\n' then [] :: splitOnNl rest
    else
      match splitOnNl rest with
      | l :: ls => (c :: l) :: ls
      | [] => [[c]]

/-- Python `str.splitlines` restricted to newline separators: like
`splitOnNl` but without a trailing empty piece for a trailing newline, and
empty for the empty string. -/
def splitlines (cs : List Char) : List (List Char) :=
  match (splitOnNl cs).reverse with
  | [] :: rest => rest.reverse
  | other => other.reverse

/-- Python whitespace as removed by `str.strip()`. -/
def pyWs (c : Char) : Bool :=
  c = ' ' || c = '\t' || c = '\n' || c = '\r' || c = '\x0b' || c = '\x0c'

/-- Render comment lines `// <line>\n` for each given line. -/
def headerOf (lines : List (List Char)) : List Char :=
  (lines.map (fun ln => '/' :: '/' :: ' ' :: ln ++ ['\n'])).flatten

/-- Header written by `WorkspaceState.save`: when the state has a top-level
`_comment` string whose strip is non-empty, each of its lines is rendered
as a `//` comment line (splitlines modelled on newline separators). -/
def workspace_header (st : Json) : List Char :=
  match st with
  | .obj kvs =>
    match kvs.lookup "_comment".data with
    | some (.str c) => if c.any (fun ch => !(pyWs ch)) then headerOf (splitlines c) else []
    | _ => []
  | _ => []

/-- Embeds `WorkspaceState.save` up to the file system: the text written to
the workspace file (the temp-file-then-replace step is not modelled). -/
def workspace_save (st : Json) : List Char :=
  workspace_header st ++ encodeVal st 0

/-- Embeds `WorkspaceState.load` on the raw file text: strip comments, then
parse; any parse failure makes `load` return `False` (modelled as `none`),
leaving the caller with its previous in-memory state. -/
def workspace_load (raw : List Char) : Option Json :=
  match parseVal ((strip_json_comments raw).length + 1) (skipWs (strip_json_comments raw)) with
  | some (v, r) => if skipWs r = [] then some v else none
  | none => none

/-- Session state whose only open view is the text `http://x`: its string
content contains `//`, the marker of a line comment. -/
def badWorkspaceState : Json :=
  .obj [("open_views".data, .arr [.str "http://x".data]),
        ("layout".data, .obj []),
        ("last_opened".data, .null)]

/-- Comment-marker-free session state with one text view and a theme. -/
def goodWorkspaceState : Json :=
  .obj [("open_views".data,
          .arr [.obj [("type".data, .str "text".data),
                      ("title".data, .str "Welcome".data),
                      ("content".data, .str "hello geoflow".data)]]),
        ("layout".data, .obj [("theme".data, .str "dark".data)]),
        ("last_opened".data, .null)]

/-! ## Sample inputs used by witnesses -/

/-- Well holding only the GR samples of the specification example. -/
def wellGR : Well :=
  { name := "W", curves := [("GR", [30, 90, 150])], units := [], descriptions := [] }

/-- Well holding an RHOB curve. -/
def wellRHOB : Well :=
  { name := "W", curves := [("RHOB", [53/20, 2, 1])], units := [], descriptions := [] }

/-- Well holding all four depth-curve candidates. -/
def wellAllDepth : Well :=
  { name := "W",
    curves := [("TVD", [0]), ("MD", [0]), ("DEPTH", [0]), ("DEPT", [0])],
    units := [], descriptions := [] }

/-- Canvas in the default state: depth range (0, 1000), default tracks. -/
def canvas0 : CanvasState := { depth_range := (0, 1000), tracks := default_tracks }

/-! ## Helper lemmas -/

/-- Association-list lookup fails exactly when the key is not among the keys. -/
theorem lookup_eq_none_iff_not_mem {α : Type} (l : List (String × α)) (s : String) :
    l.lookup s = none ↔ s ∉ l.map Prod.fst := by
  induction l with
  | nil => simp [List.lookup]
  | cons p l ih =>
    obtain ⟨k, v⟩ := p
    by_cases hk : s = k
    · simp [List.lookup, hk]
    · have hbeq : (s == k) = false := by simp [hk]
      simp only [List.lookup, hbeq, List.map_cons]
      rw [ih]
      simp [hk]

/-- Association-list lookup with a default stays below a bound satisfied by
every table value and by the default. -/
theorem lookup_getD_lt : ∀ (l : List (String × Nat)) (s : String) (d n : Nat),
    (∀ p ∈ l, p.2 < n) → d < n → (l.lookup s).getD d < n := by
  intro l s d n
  induction l with
  | nil => intro _ hd; simpa [List.lookup] using hd
  | cons p l ih =>
    intro hl hd
    obtain ⟨k, v⟩ := p
    by_cases hk : s = k
    · subst hk
      simpa [List.lookup] using hl (s, v) (List.mem_cons_self _ _)
    · have hbeq : (s == k) = false := by simp [hk]
      simp only [List.lookup, hbeq]
      exact ih (fun q hq => hl q (List.mem_cons_of_mem _ hq)) hd

/-- The clipped formulas always land in the unit interval. -/
theorem clip01_bounds (x : ℚ) : 0 ≤ clip x 0 1 ∧ clip x 0 1 ≤ 1 :=
  ⟨le_min zero_le_one (le_max_left 0 x), min_le_left 1 (max 0 x)⟩

/-! ## Lemmas on the JSON model: tokens and whitespace -/

/-- Hex digits decode back to their value. -/
theorem hexVal_hexDigit : ∀ n < 16, hexVal (hexDigit n) = some n := by decide

/-- Decimal digits decode back to their value, and are not any of the
characters the parser dispatches on. -/
theorem digitChar_props : ∀ d < 10, digitVal (Nat.digitChar d) = some d ∧
    Nat.digitChar d ≠ 'n' ∧ Nat.digitChar d ≠ 't' ∧ Nat.digitChar d ≠ 'f' ∧
    Nat.digitChar d ≠ '"' ∧ Nat.digitChar d ≠ '[' ∧ Nat.digitChar d ≠ '\x7b' ∧
    Nat.digitChar d ≠ '-' ∧ jsonWs (Nat.digitChar d) = false ∧
    Nat.digitChar d ≠ ']' ∧ Nat.digitChar d ≠ '\x7d' := by decide

/-- Skipping whitespace stops at a non-whitespace head. -/
theorem skipWs_not_ws {c : Char} (cs : List Char) (h : jsonWs c = false) :
    skipWs (c :: cs) = c :: cs := by
  simp [skipWs, h]

/-- Skipping whitespace passes over any run of spaces. -/
theorem skipWs_spaces : ∀ (m : Nat) (cs : List Char),
    skipWs (List.replicate m ' ' ++ cs) = skipWs cs := by
  intro m
  induction m with
  | zero => intro cs; rfl
  | succ k ih => intro cs; simpa [List.replicate_succ, skipWs] using ih cs

/-- Skipping whitespace passes over a newline followed by an indent. -/
theorem skipWs_indent (k : Nat) (cs : List Char) :
    skipWs ('\n' :: (indentChars k ++ cs)) = skipWs cs := by
  have h : skipWs ('\n' :: (indentChars k ++ cs)) = skipWs (indentChars k ++ cs) := rfl
  rw [h, indentChars, skipWs_spaces]

/-! ## Lemmas on the JSON model: strings -/

/-- One escaped character parses back to that character. -/
theorem parseStrBody_escChar (c : Char) (rest : List Char) :
    parseStrBody (escChar c ++ rest) = (parseStrBody rest).map (fun p => (c :: p.1, p.2)) := by
  by_cases h1 : c = '"'
  · subst h1; show parseStrBody ('\\' :: '"' :: rest) = _; rw [parseStrBody.eq_def]; rfl
  by_cases h2 : c = '\\'
  · subst h2; show parseStrBody ('\\' :: '\\' :: rest) = _; rw [parseStrBody.eq_def]; rfl
  by_cases h3 : c = '\x08'
  · subst h3; show parseStrBody ('\\' :: 'b' :: rest) = _; rw [parseStrBody.eq_def]; rfl
  by_cases h4 : c = '\x0c'
  · subst h4; show parseStrBody ('\\' :: 'f' :: rest) = _; rw [parseStrBody.eq_def]; rfl
  by_cases h5 : c = '\n'
  · subst h5; show parseStrBody ('\\' :: 'n' :: rest) = _; rw [parseStrBody.eq_def]; rfl
  by_cases h6 : c = '\r'
  · subst h6; show parseStrBody ('\\' :: 'r' :: rest) = _; rw [parseStrBody.eq_def]; rfl
  by_cases h7 : c = '\t'
  · subst h7; show parseStrBody ('\\' :: 't' :: rest) = _; rw [parseStrBody.eq_def]; rfl
  by_cases h8 : c.toNat < 32
  · have e1 : hexVal (hexDigit (c.toNat / 16)) = some (c.toNat / 16) :=
      hexVal_hexDigit _ (by omega)
    have e2 : hexVal (hexDigit (c.toNat % 16)) = some (c.toNat % 16) :=
      hexVal_hexDigit _ (by omega)
    have hesc : escChar c =
        ['\\', 'u', '0', '0', hexDigit (c.toNat / 16), hexDigit (c.toNat % 16)] := by
      simp [escChar, h1, h2, h3, h4, h5, h6, h7, h8]
    rw [hesc]
    show parseStrBody ('\\' :: 'u' :: '0' :: '0' ::
      hexDigit (c.toNat / 16) :: hexDigit (c.toNat % 16) :: rest) = _
    rw [parseStrBody.eq_def]
    have hval : c.toNat / 16 * 16 + c.toNat % 16 = c.toNat := by omega
    simp [e1, e2, hval, Char.ofNat_toNat, show hexVal '0' = some 0 from rfl]
  · have hesc : escChar c = [c] := by
      simp [escChar, h1, h2, h3, h4, h5, h6, h7, h8]
    rw [hesc, List.cons_append, List.nil_append, parseStrBody.eq_def]
    simp only [h1, h2, h8, if_false]

/-- The serialised body of a string followed by the closing quote parses
back to the string. -/
theorem parseStrBody_encBody : ∀ (s : List Char) (rest : List Char),
    parseStrBody ((s.map escChar).flatten ++ '"' :: rest) = some (s, rest) := by
  intro s
  induction s with
  | nil =>
    intro rest
    show parseStrBody ('"' :: rest) = some ([], rest)
    rw [parseStrBody.eq_def]
    rfl
  | cons c s ih =>
    intro rest
    rw [List.map_cons, List.flatten_cons, List.append_assoc, parseStrBody_escChar, ih]
    rfl

/-- A serialised string parses back to the string. -/
theorem parseStrBody_encString (s : List Char) (rest : List Char) :
    parseStrBody (((s.map escChar).flatten ++ ['"']) ++ rest) = some (s, rest) := by
  rw [List.append_assoc]
  exact parseStrBody_encBody s rest

/-! ## Lemmas on the JSON model: numbers -/

/-- The digit fold over the decimal run stops at a non-digit. -/
theorem parseDigits_nodigit : ∀ (rest : List Char) (acc : Nat),
    headDigit rest = false → parseDigits rest acc = (acc, rest) := by
  intro rest acc h
  cases rest with
  | nil => rfl
  | cons c r =>
    cases hdv : digitVal c with
    | none =>
      rw [parseDigits.eq_def]
      simp [hdv]
    | some d =>
      exfalso
      simp [headDigit, hdv] at h

/-- Every character produced by `natDigitsAux` is a decimal digit. -/
theorem natDigitsAux_mem : ∀ (fuel n : Nat) (c : Char), c ∈ natDigitsAux fuel n →
    ∃ d, d < 10 ∧ c = Nat.digitChar d := by
  intro fuel
  induction fuel with
  | zero => intro n c hc; simp [natDigitsAux] at hc
  | succ f ih =>
    intro n c hc
    rw [natDigitsAux.eq_def] at hc
    by_cases h0 : n = 0
    · simp [h0] at hc
    · simp only [h0, if_false, List.mem_append, List.mem_singleton] at hc
      rcases hc with hc | hc
      · exact ih _ _ hc
      · exact ⟨n % 10, by omega, hc⟩

/-- Parsing digits walks through a run of digit characters, folding them. -/
theorem parseDigits_append : ∀ (ds rest : List Char) (acc : Nat),
    (∀ c ∈ ds, (digitVal c).isSome) →
    parseDigits (ds ++ rest) acc =
      parseDigits rest (ds.foldl (fun a c => a * 10 + (digitVal c).getD 0) acc) := by
  intro ds
  induction ds with
  | nil => intro rest acc _; rfl
  | cons c ds ih =>
    intro rest acc hds
    obtain ⟨d, hd⟩ := Option.isSome_iff_exists.1 (hds c (List.mem_cons_self _ _))
    rw [List.cons_append, parseDigits.eq_def]
    simp only [hd, List.foldl_cons, Option.getD_some]
    exact ih rest _ (fun x hx => hds x (List.mem_cons_of_mem _ hx))

/-- Folding the decimal digits of `n` onto `acc` recovers `n` shifted past
the digit count. -/
theorem natDigitsAux_foldl : ∀ (fuel n acc : Nat), n ≤ fuel →
    (natDigitsAux fuel n).foldl (fun a c => a * 10 + (digitVal c).getD 0) acc =
      acc * 10 ^ (natDigitsAux fuel n).length + n := by
  intro fuel
  induction fuel with
  | zero =>
    intro n acc hn
    have h0 : n = 0 := by omega
    subst h0
    simp [natDigitsAux]
  | succ f ih =>
    intro n acc hn
    by_cases h0 : n = 0
    · subst h0; simp [natDigitsAux]
    · rw [natDigitsAux.eq_def]
      simp only [h0, if_false]
      have hdv : digitVal (Nat.digitChar (n % 10)) = some (n % 10) :=
        (digitChar_props (n % 10) (by omega)).1
      rw [List.foldl_append, ih (n / 10) acc (by omega), List.length_append]
      simp only [List.foldl_cons, List.foldl_nil, List.length_singleton, hdv,
        Option.getD_some]
      have hmod : n / 10 * 10 + n % 10 = n := by omega
      rw [pow_succ]
      ring_nf
      ring_nf at hmod ⊢
      omega

/-- The decimal rendering of a natural number starts with a digit and the
remaining digits fold back to the number. -/
theorem natRepr_digits_parse : ∀ (n : Nat) (rest : List Char), headDigit rest = false →
    ∃ d ds, d < 10 ∧ natRepr n = Nat.digitChar d :: ds ∧
      parseDigits (ds ++ rest) d = (n, rest) := by
  intro n rest hrest
  by_cases h0 : n = 0
  · subst h0
    refine ⟨0, [], by omega, by rfl, ?_⟩
    simpa using parseDigits_nodigit rest 0 hrest
  · have hne : natDigitsAux n n ≠ [] := by
      cases n with
      | zero => exact absurd rfl h0
      | succ m =>
        rw [natDigitsAux.eq_def]
        simp [h0]
    obtain ⟨c, ds, hcds⟩ := List.exists_cons_of_ne_nil hne
    obtain ⟨d, hd10, hcd⟩ := natDigitsAux_mem n n c (by rw [hcds]; exact List.mem_cons_self _ _)
    subst hcd
    have hrepr : natRepr n = Nat.digitChar d :: ds := by
      rw [natRepr, if_neg h0, hcds]
    refine ⟨d, ds, hd10, hrepr, ?_⟩
    have hdigits : ∀ x ∈ ds, (digitVal x).isSome := by
      intro x hx
      obtain ⟨e, he10, hxe⟩ := natDigitsAux_mem n n x
        (by rw [hcds]; exact List.mem_cons_of_mem _ hx)
      rw [hxe, (digitChar_props e he10).1]
      rfl
    have hfold : (natDigitsAux n n).foldl (fun a c => a * 10 + (digitVal c).getD 0) 0 = n := by
      rw [natDigitsAux_foldl n n 0 (le_refl n)]
      omega
    rw [hcds] at hfold
    simp only [List.foldl_cons, (digitChar_props d hd10).1, Option.getD_some] at hfold
    rw [parseDigits_append ds rest d hdigits, parseDigits_nodigit rest _ hrest]
    simp only [Nat.zero_mul, Nat.zero_add] at hfold
    rw [hfold]

/-- A serialised integer parses back to the integer. -/
theorem parseNum_intRepr : ∀ (i : Int) (rest : List Char), headDigit rest = false →
    parseNum (intRepr i ++ rest) = some (i, rest) := by
  intro i rest hrest
  by_cases hneg : i < 0
  · obtain ⟨d, ds, hd10, hrepr, hpd⟩ := natRepr_digits_parse i.natAbs rest hrest
    rw [intRepr, if_pos hneg, List.cons_append, parseNum.eq_def]
    simp only [hrepr, List.cons_append, if_pos rfl]
    simp only [(digitChar_props d hd10).1, hpd]
    have : -((i.natAbs : Int)) = i := by omega
    rw [this]
    simp
  · obtain ⟨d, ds, hd10, hrepr, hpd⟩ := natRepr_digits_parse i.toNat rest hrest
    rw [intRepr, if_neg hneg, hrepr, List.cons_append, parseNum.eq_def]
    have hprops := digitChar_props d hd10
    simp only [hprops.2.2.2.2.2.2.2.1, if_false, hprops.1, hpd]
    have : ((i.toNat : Int)) = i := by omega
    rw [this]

/-! ## Lemmas on the JSON model: round trip of the serialiser and parser -/

/-- Every serialised value starts with an allowed opening character. -/
theorem encodeVal_head : ∀ (v : Json) (k : Nat), ∃ c t,
    encodeVal v k = c :: t ∧ goodHead c := by
  intro v k
  cases v with
  | num n =>
    by_cases hneg : n < 0
    · refine ⟨'-', natRepr n.natAbs, by simp [encodeVal, intRepr, hneg], by decide⟩
    · obtain ⟨d, ds, hd10, hrepr, _⟩ := natRepr_digits_parse n.toNat [] rfl
      have hp := digitChar_props d hd10
      refine ⟨Nat.digitChar d, ds, by simp [encodeVal, intRepr, hneg, hrepr], ?_, ?_⟩
      · exact hp.2.2.2.2.2.2.2.2.1
      · exact ⟨hp.2.2.2.2.2.2.2.2.2.1, hp.2.2.2.2.2.2.2.2.2.2⟩
  | bool b => cases b <;> exact ⟨_, _, rfl, by decide⟩
  | arr xs => cases xs <;> exact ⟨_, _, rfl, by decide⟩
  | obj ms => cases ms <;> exact ⟨_, _, rfl, by decide⟩
  | _ => exact ⟨_, _, rfl, by decide⟩

/-- The continuation after an array element never starts with a digit. -/
theorem headDigit_arrTail (xs : List Json) (k : Nat) (tail : List Char) :
    headDigit (encodeArrTail xs k ++ '\n' :: tail) = false := by
  cases xs with
  | nil => rfl
  | cons x xs => rfl

/-- The continuation after an object member never starts with a digit. -/
theorem headDigit_objTail (ms : List (List Char × Json)) (k : Nat) (tail : List Char) :
    headDigit (encodeObjTail ms k ++ '\n' :: tail) = false := by
  cases ms with
  | nil => rfl
  | cons m ms => rfl

/-- Unfolding of the parser on an opening bracket. -/
theorem parseVal_arr_eq (f : Nat) (cs : List Char) : parseVal (f + 1) ('[' :: cs) =
    (if (skipWs cs).head? = some ']' then some (.arr [], (skipWs cs).tail)
     else
       match parseVal f (skipWs cs) with
       | some (x, r2) =>
         (match parseArrTail f r2 with
          | some (xs, r3) => some (.arr (x :: xs), r3)
          | none => none)
       | none => none) := rfl

/-- Unfolding of the parser on an opening brace. -/
theorem parseVal_obj_eq (f : Nat) (cs : List Char) : parseVal (f + 1) ('\x7b' :: cs) =
    (if (skipWs cs).head? = some '\x7d' then some (.obj [], (skipWs cs).tail)
     else
       match parseMember f (skipWs cs) with
       | some (m, r2) =>
         (match parseObjTail f r2 with
          | some (ms, r3) => some (.obj (m :: ms), r3)
          | none => none)
       | none => none) := rfl

/-- Unfolding of the member parser on an opening quote. -/
theorem parseMember_quote_eq (f : Nat) (cs : List Char) : parseMember (f + 1) ('"' :: cs) =
    (match parseStrBody cs with
     | some (key, r2) =>
       if (skipWs r2).head? = some ':' then
         match parseVal f (skipWs (skipWs r2).tail) with
         | some (v, r3) => some ((key, v), r3)
         | none => none
       else none
     | none => none) := rfl

/-- Unfolding of the array-continuation parser. -/
theorem parseArrTail_eq (f : Nat) (cs : List Char) : parseArrTail (f + 1) cs =
    (if (skipWs cs).head? = some ',' then
       match parseVal f (skipWs (skipWs cs).tail) with
       | some (x, r2) =>
         (match parseArrTail f r2 with
          | some (xs, r3) => some (x :: xs, r3)
          | none => none)
       | none => none
     else if (skipWs cs).head? = some ']' then some ([], (skipWs cs).tail)
     else none) := rfl

/-- Unfolding of the object-continuation parser. -/
theorem parseObjTail_eq (f : Nat) (cs : List Char) : parseObjTail (f + 1) cs =
    (if (skipWs cs).head? = some ',' then
       match parseMember f (skipWs (skipWs cs).tail) with
       | some (m, r2) =>
         (match parseObjTail f r2 with
          | some (ms, r3) => some (m :: ms, r3)
          | none => none)
       | none => none
     else if (skipWs cs).head? = some '\x7d' then some ([], (skipWs cs).tail)
     else none) := rfl

/-- Serialised member in head-normal list form. -/
theorem encMember_cons (key : List Char) (mv : Json) (k : Nat) (R : List Char) :
    encMember (key, mv) k ++ R =
      '"' :: (((key.map escChar).flatten ++ ['"']) ++
        (':' :: ' ' :: (encodeVal mv k ++ R))) := by
  show (('"' :: ((key.map escChar).flatten ++ ['"'])) ++
    ':' :: ' ' :: encodeVal mv k) ++ R = _
  simp [List.append_assoc]

/-- A serialised member starts at its opening quote, which no whitespace
skip removes. -/
theorem skipWs_encMember (m : List Char × Json) (k : Nat) (R : List Char) :
    skipWs (encMember m k ++ R) = encMember m k ++ R := by
  obtain ⟨key, mv⟩ := m
  rw [encMember_cons, skipWs_not_ws _ (by decide), ← encMember_cons]

/-- A serialised member is headed by its opening quote. -/
theorem encMember_head (m : List Char × Json) (k : Nat) (R : List Char) :
    (encMember m k ++ R).head? = some '"' := by
  obtain ⟨key, mv⟩ := m
  rw [encMember_cons]
  rfl

/-- Main round-trip invariant: with enough fuel, each serialiser output
followed by a non-digit continuation parses back to the serialised value,
and likewise for member lists and element lists with their closers. -/
theorem parse_encode : ∀ fuel : Nat,
    (∀ (v : Json) (k : Nat) (rest : List Char), (encodeVal v k).length < fuel →
      headDigit rest = false → parseVal fuel (encodeVal v k ++ rest) = some (v, rest)) ∧
    (∀ (m : List Char × Json) (k : Nat) (rest : List Char), (encMember m k).length < fuel →
      headDigit rest = false → parseMember fuel (encMember m k ++ rest) = some (m, rest)) ∧
    (∀ (xs : List Json) (k : Nat) (rest : List Char), (encodeArrTail xs (k + 1)).length < fuel →
      parseArrTail fuel (encodeArrTail xs (k + 1) ++ '\n' :: (indentChars k ++ ']' :: rest)) =
        some (xs, rest)) ∧
    (∀ (ms : List (List Char × Json)) (k : Nat) (rest : List Char),
      (encodeObjTail ms (k + 1)).length < fuel →
      parseObjTail fuel (encodeObjTail ms (k + 1) ++ '\n' :: (indentChars k ++ '\x7d' :: rest)) =
        some (ms, rest)) := by
  intro fuel
  induction fuel with
  | zero =>
    exact ⟨fun v k rest h _ => absurd h (Nat.not_lt_zero _),
           fun m k rest h _ => absurd h (Nat.not_lt_zero _),
           fun xs k rest h => absurd h (Nat.not_lt_zero _),
           fun ms k rest h => absurd h (Nat.not_lt_zero _)⟩
  | succ f ih =>
    obtain ⟨ihV, ihM, ihA, ihO⟩ := ih
    have hVal : ∀ (v : Json) (k : Nat) (rest : List Char),
        (encodeVal v k).length < f + 1 → headDigit rest = false →
        parseVal (f + 1) (encodeVal v k ++ rest) = some (v, rest) := by
      intro v k rest hlen hrest
      cases v with
      | null => rfl
      | bool b => cases b <;> rfl
      | num n =>
        by_cases hneg : n < 0
        · have hp := parseNum_intRepr n rest hrest
          rw [intRepr, if_pos hneg, List.cons_append] at hp
          have henc : encodeVal (.num n) k = '-' :: natRepr n.natAbs := by
            simp [encodeVal, intRepr, hneg]
          rw [henc, List.cons_append]
          show (parseNum ('-' :: (natRepr n.natAbs ++ rest))).map
            (fun p => (Json.num p.1, p.2)) = some (.num n, rest)
          rw [hp]
          rfl
        · have hp := parseNum_intRepr n rest hrest
          rw [intRepr, if_neg hneg] at hp
          obtain ⟨d, ds, hd10, hrepr, _⟩ := natRepr_digits_parse n.toNat rest hrest
          have hprops := digitChar_props d hd10
          have henc : encodeVal (.num n) k = natRepr n.toNat := by
            simp [encodeVal, intRepr, hneg]
          rw [henc, hrepr, List.cons_append, parseVal.eq_def]
          simp only [hprops.2.1, hprops.2.2.1, hprops.2.2.2.1, hprops.2.2.2.2.1,
            hprops.2.2.2.2.2.1, hprops.2.2.2.2.2.2.1, if_false]
          rw [← List.cons_append, ← hrepr, hp]
          rfl
      | str s =>
        show (parseStrBody (((s.map escChar).flatten ++ ['"']) ++ rest)).map
          (fun p => (Json.str p.1, p.2)) = some (.str s, rest)
        rw [parseStrBody_encString]
        rfl
      | arr xs =>
        cases xs with
        | nil => rfl
        | cons x xs =>
          obtain ⟨c, t, hxeq, hgood⟩ := encodeVal_head x (k + 1)
          have henc : encodeVal (.arr (x :: xs)) k ++ rest =
              '[' :: ('\n' :: (indentChars (k + 1) ++ (encodeVal x (k + 1) ++
                (encodeArrTail xs (k + 1) ++
                  '\n' :: (indentChars k ++ ']' :: rest))))) := by
            show ('[' :: '\n' :: (indentChars (k + 1) ++ encodeVal x (k + 1) ++
              encodeArrTail xs (k + 1) ++ '\n' :: (indentChars k ++ [']']))) ++ rest = _
            simp [List.append_assoc]
          have hlen2 : (encodeVal x (k + 1)).length < f ∧
              (encodeArrTail xs (k + 1)).length < f := by
            have h3 : (encodeVal (.arr (x :: xs)) k).length =
                2 + (2 * (k + 1)) + ((encodeVal x (k + 1)).length +
                  ((encodeArrTail xs (k + 1)).length + (1 + (2 * k + 1)))) := by
              show ('[' :: '\n' :: (indentChars (k + 1) ++ encodeVal x (k + 1) ++
                encodeArrTail xs (k + 1) ++
                  '\n' :: (indentChars k ++ [']']))).length = _
              simp [indentChars, List.length_append]
              ring
            rw [h3] at hlen
            omega
          rw [henc, parseVal_arr_eq]
          have hskip : skipWs ('\n' :: (indentChars (k + 1) ++ (encodeVal x (k + 1) ++
              (encodeArrTail xs (k + 1) ++ '\n' :: (indentChars k ++ ']' :: rest))))) =
              encodeVal x (k + 1) ++
                (encodeArrTail xs (k + 1) ++ '\n' :: (indentChars k ++ ']' :: rest)) := by
            rw [skipWs_indent, hxeq, List.cons_append, skipWs_not_ws _ hgood.1]
          rw [hskip]
          have hne : ((encodeVal x (k + 1) ++ (encodeArrTail xs (k + 1) ++
              '\n' :: (indentChars k ++ ']' :: rest)))).head? ≠ some ']' := by
            rw [hxeq, List.cons_append]
            simp [hgood.2.1]
          rw [if_neg hne]
          have hpx := ihV x (k + 1)
            (encodeArrTail xs (k + 1) ++ '\n' :: (indentChars k ++ ']' :: rest))
            hlen2.1 (headDigit_arrTail xs (k + 1) (indentChars k ++ ']' :: rest))
          have hpt := ihA xs k rest hlen2.2
          simp only [hpx, hpt]
      | obj ms =>
        cases ms with
        | nil => rfl
        | cons m ms =>
          have henc : encodeVal (.obj (m :: ms)) k ++ rest =
              '\x7b' :: ('\n' :: (indentChars (k + 1) ++ (encMember m (k + 1) ++
                (encodeObjTail ms (k + 1) ++
                  '\n' :: (indentChars k ++ '\x7d' :: rest))))) := by
            show ('\x7b' :: '\n' :: (indentChars (k + 1) ++ encMember m (k + 1) ++
              encodeObjTail ms (k + 1) ++ '\n' :: (indentChars k ++ ['\x7d']))) ++ rest = _
            simp [List.append_assoc]
          have hlen2 : (encMember m (k + 1)).length < f ∧
              (encodeObjTail ms (k + 1)).length < f := by
            have h3 : (encodeVal (.obj (m :: ms)) k).length =
                2 + (2 * (k + 1)) + ((encMember m (k + 1)).length +
                  ((encodeObjTail ms (k + 1)).length + (1 + (2 * k + 1)))) := by
              show ('\x7b' :: '\n' :: (indentChars (k + 1) ++ encMember m (k + 1) ++
                encodeObjTail ms (k + 1) ++
                  '\n' :: (indentChars k ++ ['\x7d']))).length = _
              simp [indentChars, List.length_append]
              ring
            rw [h3] at hlen
            omega
          rw [henc, parseVal_obj_eq]
          have hskip : skipWs ('\n' :: (indentChars (k + 1) ++ (encMember m (k + 1) ++
              (encodeObjTail ms (k + 1) ++ '\n' :: (indentChars k ++ '\x7d' :: rest))))) =
              encMember m (k + 1) ++
                (encodeObjTail ms (k + 1) ++ '\n' :: (indentChars k ++ '\x7d' :: rest)) := by
            rw [skipWs_indent, skipWs_encMember]
          rw [hskip]
          have hne : ((encMember m (k + 1) ++ (encodeObjTail ms (k + 1) ++
              '\n' :: (indentChars k ++ '\x7d' :: rest)))).head? ≠ some '\x7d' := by
            rw [encMember_head]
            decide
          rw [if_neg hne]
          have hpm := ihM m (k + 1)
            (encodeObjTail ms (k + 1) ++ '\n' :: (indentChars k ++ '\x7d' :: rest))
            hlen2.1 (headDigit_objTail ms (k + 1) (indentChars k ++ '\x7d' :: rest))
          have hpt := ihO ms k rest hlen2.2
          simp only [hpm, hpt]
    refine ⟨hVal, ?_, ?_, ?_⟩
    · intro m k rest hlen hrest
      obtain ⟨key, mv⟩ := m
      have hlen2 : (encodeVal mv k).length < f := by
        have h3 : (encMember (key, mv) k).length =
            ((key.map escChar).flatten ++ ['"']).length + 1 + 1 +
              (encodeVal mv k).length + 1 := by
          show (('"' :: ((key.map escChar).flatten ++ ['"'])) ++
            ':' :: ' ' :: encodeVal mv k).length = _
          simp [List.length_append]
          ring
        rw [h3] at hlen
        omega
      rw [encMember_cons, parseMember_quote_eq]
      simp only [parseStrBody_encString]
      have hcolon : skipWs (':' :: ' ' :: (encodeVal mv k ++ rest)) =
          ':' :: ' ' :: (encodeVal mv k ++ rest) := skipWs_not_ws _ (by decide)
      rw [hcolon]
      simp only [List.head?_cons, List.tail_cons, if_true]
      obtain ⟨c, t, hxeq, hgood⟩ := encodeVal_head mv k
      have hskip2 : skipWs (' ' :: (encodeVal mv k ++ rest)) = encodeVal mv k ++ rest := by
        rw [show skipWs (' ' :: (encodeVal mv k ++ rest)) =
          skipWs (encodeVal mv k ++ rest) from rfl, hxeq, List.cons_append,
          skipWs_not_ws _ hgood.1, ← List.cons_append, ← hxeq]
      rw [hskip2]
      simp only [ihV mv k rest hlen2 hrest]
    · intro xs k rest hlen
      cases xs with
      | nil =>
        rw [parseArrTail_eq]
        have hskip : skipWs (encodeArrTail [] (k + 1) ++
            '\n' :: (indentChars k ++ ']' :: rest)) = ']' :: rest := by
          show skipWs ('\n' :: (indentChars k ++ ']' :: rest)) = ']' :: rest
          rw [skipWs_indent, skipWs_not_ws _ (by decide)]
        rw [hskip]
        simp
      | cons y ys =>
        obtain ⟨c, t, hxeq, hgood⟩ := encodeVal_head y (k + 1)
        have henc : encodeArrTail (y :: ys) (k + 1) ++
            '\n' :: (indentChars k ++ ']' :: rest) =
            ',' :: ('\n' :: (indentChars (k + 1) ++ (encodeVal y (k + 1) ++
              (encodeArrTail ys (k + 1) ++ '\n' :: (indentChars k ++ ']' :: rest))))) := by
          show (',' :: '\n' :: (indentChars (k + 1) ++ encodeVal y (k + 1) ++
            encodeArrTail ys (k + 1))) ++ '\n' :: (indentChars k ++ ']' :: rest) = _
          simp [List.append_assoc]
        have hlen2 : (encodeVal y (k + 1)).length < f ∧
            (encodeArrTail ys (k + 1)).length < f := by
          have h3 : (encodeArrTail (y :: ys) (k + 1)).length =
              2 + (2 * (k + 1)) + ((encodeVal y (k + 1)).length +
                (encodeArrTail ys (k + 1)).length) := by
            show (',' :: '\n' :: (indentChars (k + 1) ++ encodeVal y (k + 1) ++
              encodeArrTail ys (k + 1))).length = _
            simp [indentChars, List.length_append]
            ring
          rw [h3] at hlen
          omega
        rw [henc, parseArrTail_eq]
        have hskip0 : skipWs (',' :: ('\n' :: (indentChars (k + 1) ++ (encodeVal y (k + 1) ++
            (encodeArrTail ys (k + 1) ++ '\n' :: (indentChars k ++ ']' :: rest)))))) =
            ',' :: ('\n' :: (indentChars (k + 1) ++ (encodeVal y (k + 1) ++
              (encodeArrTail ys (k + 1) ++ '\n' :: (indentChars k ++ ']' :: rest))))) :=
          skipWs_not_ws _ (by decide)
        rw [hskip0]
        simp only [List.head?_cons, List.tail_cons, if_true]
        have hskip : skipWs ('\n' :: (indentChars (k + 1) ++ (encodeVal y (k + 1) ++
            (encodeArrTail ys (k + 1) ++ '\n' :: (indentChars k ++ ']' :: rest))))) =
            encodeVal y (k + 1) ++
              (encodeArrTail ys (k + 1) ++ '\n' :: (indentChars k ++ ']' :: rest)) := by
          rw [skipWs_indent, hxeq, List.cons_append, skipWs_not_ws _ hgood.1, ← List.cons_append,
            ← hxeq]
        rw [hskip]
        simp only [ihV y (k + 1)
          (encodeArrTail ys (k + 1) ++ '\n' :: (indentChars k ++ ']' :: rest))
          hlen2.1 (headDigit_arrTail ys (k + 1) (indentChars k ++ ']' :: rest)),
          ihA ys k rest hlen2.2]
    · intro ms k rest hlen
      cases ms with
      | nil =>
        rw [parseObjTail_eq]
        have hskip : skipWs (encodeObjTail [] (k + 1) ++
            '\n' :: (indentChars k ++ '\x7d' :: rest)) = '\x7d' :: rest := by
          show skipWs ('\n' :: (indentChars k ++ '\x7d' :: rest)) = '\x7d' :: rest
          rw [skipWs_indent, skipWs_not_ws _ (by decide)]
        rw [hskip]
        simp
      | cons m ms =>
        have henc : encodeObjTail (m :: ms) (k + 1) ++
            '\n' :: (indentChars k ++ '\x7d' :: rest) =
            ',' :: ('\n' :: (indentChars (k + 1) ++ (encMember m (k + 1) ++
              (encodeObjTail ms (k + 1) ++
                '\n' :: (indentChars k ++ '\x7d' :: rest))))) := by
          show (',' :: '\n' :: (indentChars (k + 1) ++ encMember m (k + 1) ++
            encodeObjTail ms (k + 1))) ++ '\n' :: (indentChars k ++ '\x7d' :: rest) = _
          simp [List.append_assoc]
        have hlen2 : (encMember m (k + 1)).length < f ∧
            (encodeObjTail ms (k + 1)).length < f := by
          have h3 : (encodeObjTail (m :: ms) (k + 1)).length =
              2 + (2 * (k + 1)) + ((encMember m (k + 1)).length +
                (encodeObjTail ms (k + 1)).length) := by
            show (',' :: '\n' :: (indentChars (k + 1) ++ encMember m (k + 1) ++
              encodeObjTail ms (k + 1))).length = _
            simp [indentChars, List.length_append]
            ring
          rw [h3] at hlen
          omega
        rw [henc, parseObjTail_eq]
        have hskip0 : skipWs (',' :: ('\n' :: (indentChars (k + 1) ++ (encMember m (k + 1) ++
            (encodeObjTail ms (k + 1) ++ '\n' :: (indentChars k ++ '\x7d' :: rest)))))) =
            ',' :: ('\n' :: (indentChars (k + 1) ++ (encMember m (k + 1) ++
              (encodeObjTail ms (k + 1) ++ '\n' :: (indentChars k ++ '\x7d' :: rest))))) :=
          skipWs_not_ws _ (by decide)
        rw [hskip0]
        simp only [List.head?_cons, List.tail_cons, if_true]
        have hskip : skipWs ('\n' :: (indentChars (k + 1) ++ (encMember m (k + 1) ++
            (encodeObjTail ms (k + 1) ++ '\n' :: (indentChars k ++ '\x7d' :: rest))))) =
            encMember m (k + 1) ++
              (encodeObjTail ms (k + 1) ++ '\n' :: (indentChars k ++ '\x7d' :: rest)) := by
          rw [skipWs_indent, skipWs_encMember]
        rw [hskip]
        simp only [ihM m (k + 1)
          (encodeObjTail ms (k + 1) ++ '\n' :: (indentChars k ++ '\x7d' :: rest))
          hlen2.1 (headDigit_objTail ms (k + 1) (indentChars k ++ '\x7d' :: rest)),
          ihO ms k rest hlen2.2]

/-! ## Lemmas on the JSON model: comment stripping -/

/-- Adjacent-pair scan unfolding. -/
theorem hasPair_cons (a b x y : Char) (rest : List Char) :
    hasPair a b (x :: y :: rest) = ((x = a && y = b) || hasPair a b (y :: rest)) := rfl

/-- Block-strip unfolding on two or more characters. -/
theorem blockStripF_cons (f : Nat) (c1 c2 : Char) (rest : List Char) :
    blockStripF (f + 1) (c1 :: c2 :: rest) =
      if c1 = '/' ∧ c2 = '*' then
        (match dropToClose rest with
         | some rest2 => blockStripF f rest2
         | none => c1 :: c2 :: rest)
      else c1 :: blockStripF f (c2 :: rest) := rfl

/-- Line-strip unfolding on two or more characters. -/
theorem lineStripF_cons (f : Nat) (c1 c2 : Char) (rest : List Char) :
    lineStripF (f + 1) (c1 :: c2 :: rest) =
      if c1 = '/' ∧ c2 = '/' then lineStripF f (dropToEol rest)
      else c1 :: lineStripF f (c2 :: rest) := rfl

/-- Line-strip never changes a single character. -/
theorem lineStripF_singleton (f : Nat) (c : Char) : lineStripF f [c] = [c] := by
  cases f with
  | zero => rfl
  | succ f2 => rfl

/-- Text without an adjacent `/*` is unchanged by block stripping. -/
theorem blockStripF_id : ∀ (fuel : Nat) (cs : List Char), hasPair '/' '*' cs = false →
    blockStripF fuel cs = cs := by
  intro fuel
  induction fuel with
  | zero => intro cs _; rfl
  | succ f ih =>
    intro cs h
    match cs with
    | [] => rfl
    | [c] => rfl
    | c1 :: c2 :: rest =>
      by_cases hc : c1 = '/' ∧ c2 = '*'
      · exfalso
        rw [hasPair_cons, hc.1, hc.2] at h
        simp at h
      · have htail : hasPair '/' '*' (c2 :: rest) = false := by
          rw [hasPair_cons] at h
          exact (Bool.or_eq_false_iff.1 h).2
        rw [blockStripF_cons, if_neg hc, ih _ htail]

/-- Text without an adjacent `//` is unchanged by line stripping. -/
theorem lineStripF_id : ∀ (fuel : Nat) (cs : List Char), hasPair '/' '/' cs = false →
    lineStripF fuel cs = cs := by
  intro fuel
  induction fuel with
  | zero => intro cs _; rfl
  | succ f ih =>
    intro cs h
    match cs with
    | [] => rfl
    | [c] => rfl
    | c1 :: c2 :: rest =>
      by_cases hc : c1 = '/' ∧ c2 = '/'
      · exfalso
        rw [hasPair_cons, hc.1, hc.2] at h
        simp at h
      · have htail : hasPair '/' '/' (c2 :: rest) = false := by
          rw [hasPair_cons] at h
          exact (Bool.or_eq_false_iff.1 h).2
        rw [lineStripF_cons, if_neg hc, ih _ htail]

/-- Scan-to-newline unfolding. -/
theorem dropToEol_eq (c : Char) (rest : List Char) :
    dropToEol (c :: rest) = if c = '\n' then c :: rest else dropToEol rest := rfl

/-- The scan to the next newline drops a newline-free prefix and keeps the
newline. -/
theorem dropToEol_through : ∀ (xs tail : List Char), '\n' ∉ xs →
    dropToEol (xs ++ '\n' :: tail) = '\n' :: tail := by
  intro xs
  induction xs with
  | nil => intro tail _; rfl
  | cons c xs ih =>
    intro tail h
    have hc : ¬c = '\n' := fun he => h (he ▸ List.mem_cons_self _ _)
    rw [List.cons_append, dropToEol_eq, if_neg hc,
      ih _ (fun hm => h (List.mem_cons_of_mem _ hm))]

/-- Header rendering unfolding. -/
theorem headerOf_cons (ln : List Char) (ls : List (List Char)) :
    headerOf (ln :: ls) = ('/' :: '/' :: ' ' :: ln ++ ['\n']) ++ headerOf ls := by
  simp [headerOf]

/-- Line stripping deletes each rendered `// …` header line, leaving its
newline, and passes the comment-free body through unchanged. -/
theorem lineStripF_header : ∀ (lines : List (List Char)) (fuel : Nat) (body : List Char),
    (∀ ln ∈ lines, '\n' ∉ ln) → hasPair '/' '/' body = false →
    (headerOf lines ++ body).length ≤ fuel →
    lineStripF fuel (headerOf lines ++ body) =
      List.replicate lines.length '\n' ++ body := by
  intro lines
  induction lines with
  | nil =>
    intro fuel body _ hb _
    simpa [headerOf] using lineStripF_id fuel body hb
  | cons ln ls ih =>
    intro fuel body hnl hb hfuel
    have htext : headerOf (ln :: ls) ++ body =
        '/' :: '/' :: ((' ' :: ln) ++ '\n' :: (headerOf ls ++ body)) := by
      rw [headerOf_cons]
      simp [List.append_assoc]
    have hlnn : '\n' ∉ ' ' :: ln := by
      intro hm
      rcases List.mem_cons.1 hm with he | hm2
      · exact absurd he (by decide)
      · exact hnl ln (List.mem_cons_self _ _) hm2
    have hLtext : (headerOf (ln :: ls) ++ body).length =
        4 + ln.length + (headerOf ls ++ body).length := by
      rw [htext]
      simp [List.length_append]
      omega
    cases fuel with
    | zero =>
      exfalso
      rw [hLtext] at hfuel
      omega
    | succ f =>
      rw [htext, lineStripF_cons, if_pos ⟨rfl, rfl⟩, dropToEol_through _ _ hlnn]
      have htail : ∀ ln2 ∈ ls, '\n' ∉ ln2 := fun ln2 hm => hnl ln2 (List.mem_cons_of_mem _ hm)
      cases hcase : headerOf ls ++ body with
      | nil =>
        obtain ⟨hh, hbn⟩ := List.append_eq_nil.1 hcase
        have hls : ls = [] := by
          cases ls with
          | nil => rfl
          | cons l2 ls2 =>
            rw [headerOf_cons] at hh
            simp at hh
        subst hls
        subst hbn
        simp [headerOf, lineStripF_singleton]
      | cons c2 Z =>
        cases f with
        | zero =>
          exfalso
          rw [hLtext, hcase] at hfuel
          simp [List.length_cons] at hfuel
          omega
        | succ f2 =>
          rw [lineStripF_cons, if_neg (fun hpair => absurd hpair.1 (by decide))]
          have hbound : (headerOf ls ++ body).length ≤ f2 := by
            rw [hLtext, hcase] at hfuel
            rw [hcase]
            simp [List.length_cons] at hfuel ⊢
            omega
          have hih := ih f2 body htail hb hbound
          rw [hcase] at hih
          rw [hih]
          simp [List.replicate_succ]

/-- Every piece of the newline split is newline free. -/
theorem splitOnNl_no_nl : ∀ (cs : List Char) (l : List Char), l ∈ splitOnNl cs →
    '\n' ∉ l := by
  intro cs
  induction cs with
  | nil =>
    intro l hl
    rw [show splitOnNl [] = [[]] from rfl] at hl
    simp at hl
    simp [hl]
  | cons c rest ih =>
    intro l hl
    have hcons : splitOnNl (c :: rest) =
        if c = '\n' then [] :: splitOnNl rest
        else
          match splitOnNl rest with
          | l2 :: ls => (c :: l2) :: ls
          | [] => [[c]] := rfl
    by_cases hc : c = '\n'
    · rw [hcons, if_pos hc] at hl
      rcases List.mem_cons.1 hl with he | hm
      · simp [he]
      · exact ih l hm
    · rw [hcons, if_neg hc] at hl
      cases hrec : splitOnNl rest with
      | nil =>
        rw [hrec] at hl
        simp at hl
        rw [hl]
        simp
        exact fun he => hc he.symm
      | cons l0 ls =>
        rw [hrec] at hl
        rcases List.mem_cons.1 hl with he | hm
        · rw [he]
          intro hmem
          rcases List.mem_cons.1 hmem with he2 | hm2
          · exact hc he2.symm
          · exact ih l0 (hrec ▸ List.mem_cons_self _ _) hm2
        · exact ih l (hrec ▸ List.mem_cons_of_mem _ hm)

/-- Every split line is a piece of the newline split. -/
theorem splitlines_sub : ∀ (cs : List Char) (l : List Char), l ∈ splitlines cs →
    l ∈ splitOnNl cs := by
  intro cs l hl
  unfold splitlines at hl
  split at hl
  · next rest heq =>
    have hmem : l ∈ [] :: rest := List.mem_cons_of_mem _ (List.mem_reverse.1 hl)
    rw [← heq] at hmem
    exact List.mem_reverse.1 hmem
  · next =>
    rw [List.reverse_reverse] at hl
    exact hl

/-- The header written by `save` always consists of newline-free comment
lines. -/
theorem workspace_header_shape : ∀ st : Json, ∃ lines,
    (∀ ln ∈ lines, '\n' ∉ ln) ∧ workspace_header st = headerOf lines := by
  intro st
  unfold workspace_header
  split
  · split
    · split
      · exact ⟨splitlines _, fun ln hln =>
          splitOnNl_no_nl _ ln (splitlines_sub _ ln hln), rfl⟩
      · exact ⟨[], by simp, rfl⟩
    · exact ⟨[], by simp, rfl⟩
  · exact ⟨[], by simp, rfl⟩

/-- Skipping whitespace passes over a run of newlines. -/
theorem skipWs_replicate_nl : ∀ (n : Nat) (cs : List Char),
    skipWs (List.replicate n '\n' ++ cs) = skipWs cs := by
  intro n
  induction n with
  | zero => intro cs; rfl
  | succ m ih => intro cs; simpa [List.replicate_succ, skipWs] using ih cs

/-! ## Claim theorems -/

/-- C1: whenever the named GR curve is present, `calculate_shale_volume`
returns the element-wise array `clip((GR - gr_clean) / (gr_shale - gr_clean), 0, 1)`,
and whenever the named density curve is present, `calculate_porosity` returns
`clip((matrix_density - RHOB) / (matrix_density - fluid_density), 0, 1)`;
every element of either result lies in [0, 1]; and on samples [30, 90, 150]
with gr_clean = 30, gr_shale = 150 the shale volume is [0.0, 0.5, 1.0]. -/
theorem shale_and_porosity_formulas :
    (∀ (w : Well) (gr_curve : String) (gr_clean gr_shale : ℚ) (gr : List ℚ),
      w.curves.lookup gr_curve = some gr →
      (calculate_shale_volume w gr_curve gr_clean gr_shale).1 =
        some (gr.map (fun g => min 1 (max 0 ((g - gr_clean) / (gr_shale - gr_clean)))))) ∧
    (∀ (w : Well) (density_curve : String) (fluid_density matrix_density : ℚ) (rhob : List ℚ),
      w.curves.lookup density_curve = some rhob →
      (calculate_porosity w density_curve fluid_density matrix_density).1 =
        some (rhob.map (fun r =>
          min 1 (max 0 ((matrix_density - r) / (matrix_density - fluid_density)))))) ∧
    (∀ (w : Well) (gr_curve : String) (gr_clean gr_shale : ℚ) (v : List ℚ),
      (calculate_shale_volume w gr_curve gr_clean gr_shale).1 = some v →
      ∀ x ∈ v, 0 ≤ x ∧ x ≤ 1) ∧
    (∀ (w : Well) (density_curve : String) (fluid_density matrix_density : ℚ) (v : List ℚ),
      (calculate_porosity w density_curve fluid_density matrix_density).1 = some v →
      ∀ x ∈ v, 0 ≤ x ∧ x ≤ 1) ∧
    (calculate_shale_volume wellGR "GR" 30 150).1 = some [0, 1/2, 1] := by
  refine ⟨?_, ?_, ?_, ?_, ?_⟩
  · intro w c cl sh gr h
    simp [calculate_shale_volume, h, vshSample, clip]
  · intro w c fd md rhob h
    simp [calculate_porosity, h, phiSample, clip]
  · intro w c cl sh v hv x hx
    cases h : w.curves.lookup c with
    | none => simp [calculate_shale_volume, h] at hv
    | some gr =>
      simp [calculate_shale_volume, h] at hv
      subst hv
      obtain ⟨g, _, hg⟩ := List.mem_map.1 hx
      rw [← hg]
      exact clip01_bounds _
  · intro w c fd md v hv x hx
    cases h : w.curves.lookup c with
    | none => simp [calculate_porosity, h] at hv
    | some rhob =>
      simp [calculate_porosity, h] at hv
      subst hv
      obtain ⟨r, _, hr⟩ := List.mem_map.1 hx
      rw [← hr]
      exact clip01_bounds _
  · simp only [calculate_shale_volume, wellGR, List.lookup, beq_self_eq_true]
    norm_num [vshSample, clip, min_def, max_def]

/-- Witness for C1 at the specification example. -/
theorem shale_and_porosity_formulas_witness :
    (calculate_shale_volume wellGR "GR" 30 150).1 =
      some ([30, 90, 150].map (fun g => min 1 (max 0 ((g - 30) / (150 - 30))))) :=
  shale_and_porosity_formulas.1 wellGR "GR" 30 150 [30, 90, 150] (by decide)

/-- C2: a depth-range edit with min greater or equal max is rejected and the
canvas state (in particular its depth range) is unchanged; an edit with
min less than max sets the depth range to exactly that pair. -/
theorem update_depth_range_guard :
    ∀ (st : CanvasState) (min_depth max_depth : ℚ),
      (max_depth ≤ min_depth → update_depth_range st min_depth max_depth = st) ∧
      (min_depth < max_depth →
        update_depth_range st min_depth max_depth =
          { st with depth_range := (min_depth, max_depth) }) := by
  intro st mn mx
  constructor
  · intro h
    simp only [update_depth_range]
    rw [if_neg (not_lt.2 h)]
  · intro h
    simp only [update_depth_range]
    rw [if_pos h]
    rfl

/-- Witness for C2: zoom(500, 100) leaves the default canvas unchanged. -/
theorem update_depth_range_guard_witness :
    update_depth_range canvas0 500 100 = canvas0 :=
  (update_depth_range_guard canvas0 500 100).1 (by norm_num)

/-- C3: depth-curve resolution returns the first of DEPT, DEPTH, MD, TVD
present in the curve set, and none exactly when no candidate is present. -/
theorem find_depth_curve_first :
    ∀ w : Well,
      (hasCurve w "DEPT" = true → find_depth_curve w = some "DEPT") ∧
      (hasCurve w "DEPT" = false → hasCurve w "DEPTH" = true →
        find_depth_curve w = some "DEPTH") ∧
      (hasCurve w "DEPT" = false → hasCurve w "DEPTH" = false →
        hasCurve w "MD" = true → find_depth_curve w = some "MD") ∧
      (hasCurve w "DEPT" = false → hasCurve w "DEPTH" = false →
        hasCurve w "MD" = false → hasCurve w "TVD" = true →
        find_depth_curve w = some "TVD") ∧
      (find_depth_curve w = none ↔ ∀ c ∈ depth_candidates, hasCurve w c = false) := by
  intro w
  cases hD : hasCurve w "DEPT" <;> cases hE : hasCurve w "DEPTH" <;>
    cases hM : hasCurve w "MD" <;> cases hT : hasCurve w "TVD" <;>
      simp [find_depth_curve, depth_candidates, List.find?, hD, hE, hM, hT]

/-- Witness for C3: with all four candidates present, DEPT wins. -/
theorem find_depth_curve_first_witness :
    find_depth_curve wellAllDepth = some "DEPT" :=
  (find_depth_curve_first wellAllDepth).1 (by decide)

/-- C4: track assignment is total and bounded by the number of default
tracks, unmapped mnemonics fall back to the gamma-ray track (index 1),
and all known table entries match the source table exactly. -/
theorem get_track_total_and_table :
    ∀ s : String,
      get_track_for_curve s < default_tracks.length ∧
      (curve_track_map.lookup s = none → get_track_for_curve s = 1) ∧
      (get_track_for_curve "DEPT" = 0 ∧ get_track_for_curve "DEPTH" = 0 ∧
       get_track_for_curve "MD" = 0 ∧ get_track_for_curve "TVD" = 0 ∧
       get_track_for_curve "GR" = 1 ∧ get_track_for_curve "GR_EDTC" = 1 ∧
       get_track_for_curve "CGR" = 1 ∧
       get_track_for_curve "RT" = 2 ∧ get_track_for_curve "ILD" = 2 ∧
       get_track_for_curve "LLD" = 2 ∧ get_track_for_curve "MSFL" = 2 ∧
       get_track_for_curve "LLS" = 2 ∧
       get_track_for_curve "RHOB" = 3 ∧ get_track_for_curve "RHOZ" = 3 ∧
       get_track_for_curve "DRHO" = 3 ∧
       get_track_for_curve "NPHI" = 4 ∧ get_track_for_curve "NPOR" = 4 ∧
       get_track_for_curve "TNPH" = 4) := by
  intro s
  refine ⟨?_, ?_, by decide⟩
  · have h5 : default_tracks.length = 5 := rfl
    rw [h5]
    exact lookup_getD_lt curve_track_map s 1 5 (by decide) (by decide)
  · intro h
    simp [get_track_for_curve, h]

/-- Witness for C4: an unmapped mnemonic falls back to track 1. -/
theorem get_track_total_and_table_witness :
    get_track_for_curve "VSH" = 1 :=
  (get_track_total_and_table "VSH").2.1 (by decide)

/-- C5: the per-sample shale-volume formula is monotonically non-decreasing
in the GR value (when gr_shale exceeds gr_clean), and the per-sample
porosity formula is monotonically non-increasing in the RHOB value (when
matrix density exceeds fluid density). -/
theorem shale_monotone_porosity_antitone :
    (∀ (gr_clean gr_shale g1 g2 : ℚ), gr_clean < gr_shale → g1 ≤ g2 →
      vshSample gr_clean gr_shale g1 ≤ vshSample gr_clean gr_shale g2) ∧
    (∀ (fluid_density matrix_density r1 r2 : ℚ), fluid_density < matrix_density →
      r1 ≤ r2 →
      phiSample fluid_density matrix_density r2 ≤ phiSample fluid_density matrix_density r1) := by
  constructor
  · intro gc gs g1 g2 hgs hg
    unfold vshSample clip
    have hpos : (0 : ℚ) < gs - gc := by linarith
    have hdiv : (g1 - gc) / (gs - gc) ≤ (g2 - gc) / (gs - gc) :=
      (div_le_div_iff_of_pos_right hpos).2 (by linarith)
    exact min_le_min (le_refl 1) (max_le_max (le_refl 0) hdiv)
  · intro fd md r1 r2 hmd hr
    unfold phiSample clip
    have hpos : (0 : ℚ) < md - fd := by linarith
    have hdiv : (md - r2) / (md - fd) ≤ (md - r1) / (md - fd) :=
      (div_le_div_iff_of_pos_right hpos).2 (by linarith)
    exact min_le_min (le_refl 1) (max_le_max (le_refl 0) hdiv)

/-- Witness for C5 at concrete calibration constants and samples. -/
theorem shale_monotone_porosity_antitone_witness :
    ((30 : ℚ) < 150 ∧ vshSample 30 150 40 ≤ vshSample 30 150 100) ∧
    ((1 : ℚ) < 53/20 ∧ phiSample 1 (53/20) (5/2) ≤ phiSample 1 (53/20) 2) :=
  ⟨⟨by norm_num, shale_monotone_porosity_antitone.1 30 150 40 100 (by norm_num) (by norm_num)⟩,
   ⟨by norm_num, shale_monotone_porosity_antitone.2 1 (53/20) 2 (5/2) (by norm_num) (by norm_num)⟩⟩

/-- C7: each derivation returns none exactly when the named curve is absent
from the curve mapping, and on both paths the well (curves, units and
descriptions) is returned unchanged. -/
theorem derivations_pure_and_fail_iff_absent :
    ∀ (w : Well) (c : String) (gr_clean gr_shale fluid_density matrix_density : ℚ),
      ((calculate_shale_volume w c gr_clean gr_shale).1 = none ↔ c ∉ get_curve_names w) ∧
      (calculate_shale_volume w c gr_clean gr_shale).2 = w ∧
      ((calculate_porosity w c fluid_density matrix_density).1 = none ↔
        c ∉ get_curve_names w) ∧
      (calculate_porosity w c fluid_density matrix_density).2 = w := by
  intro w c a b d e
  have hiff := lookup_eq_none_iff_not_mem w.curves c
  have hnames : get_curve_names w = w.curves.map Prod.fst := rfl
  refine ⟨?_, ?_, ?_, ?_⟩
  · rw [hnames, ← hiff]
    cases h : w.curves.lookup c <;> simp [calculate_shale_volume, h]
  · cases h : w.curves.lookup c <;> simp [calculate_shale_volume, h]
  · rw [hnames, ← hiff]
    cases h : w.curves.lookup c <;> simp [calculate_porosity, h]
  · cases h : w.curves.lookup c <;> simp [calculate_porosity, h]

/-- C8: a failed parse returns no well name and leaves the collection
exactly as it was; a successful parse returns the well name and stores the
well by dict assignment (adding or overwriting that key). -/
theorem load_well_failure_no_mutation :
    ∀ (wells : List (String × Well)) (stem : String) (parsed : Option LasFile),
      (parsed = none → load_well wells stem parsed = (none, wells)) ∧
      ((load_well wells stem parsed).1 = none →
        (load_well wells stem parsed).2 = wells) ∧
      (∀ las, parsed = some las → ∃ w, load_from_las stem (some las) = some w ∧
        load_well wells stem parsed = (some w.name, dict_insert wells w.name w)) := by
  intro wells stem parsed
  cases parsed with
  | none =>
      exact ⟨fun _ => rfl, fun _ => rfl, fun las h => by cases h⟩
  | some las =>
      refine ⟨?_, ?_, ?_⟩
      · intro h
        cases h
      · intro h
        simp [load_well, load_from_las] at h
      · intro las2 h
        cases h
        exact ⟨_, rfl, rfl⟩

/-- Witness for C8: a failing parse leaves an empty collection empty. -/
theorem load_well_failure_no_mutation_witness :
    load_well [] "well1" none = (none, []) :=
  (load_well_failure_no_mutation [] "well1" none).1 rfl

/-- C9: a resize drag on an in-range track keeps the track count, keeps the
resized track's name, colour and curves, gives it width
`max(0.1, width + delta * 0.01)` (hence at least the 0.1 floor), and leaves
every other position of the track list unchanged. -/
theorem on_motion_resize_frame :
    ∀ (tracks : List Track) (idx : Nat) (delta_x : ℚ), idx < tracks.length →
      (on_motion_resize tracks idx delta_x).length = tracks.length ∧
      (∀ h : idx < tracks.length,
        (on_motion_resize tracks idx delta_x)[idx]? =
          some { tracks.get ⟨idx, h⟩ with
                 width := max (1/10)
                   ((tracks.get ⟨idx, h⟩).width + delta_x * (1/100)) }) ∧
      (∀ t, (on_motion_resize tracks idx delta_x)[idx]? = some t → 1/10 ≤ t.width) ∧
      (∀ j, j ≠ idx → (on_motion_resize tracks idx delta_x)[j]? = tracks[j]?) := by
  intro tracks idx dx h
  unfold on_motion_resize
  rw [dif_pos h]
  refine ⟨List.length_set .., ?_, ?_, ?_⟩
  · intro h2
    rw [List.getElem?_set_self (by simpa using h)]
  · intro t ht
    rw [List.getElem?_set_self (by simpa using h)] at ht
    cases ht
    exact le_max_left _ _
  · intro j hj
    rw [List.getElem?_set_ne (by omega)]

/-- Witness for C9 on the default track list. -/
theorem on_motion_resize_frame_witness :
    2 < default_tracks.length ∧
    (on_motion_resize default_tracks 2 (-500)).length = default_tracks.length :=
  ⟨by decide, (on_motion_resize_frame default_tracks 2 (-500) (by decide)).1⟩

/-- C10: `setup_display` never leaves an empty track list, and for a bound
well and a non-empty track list, `update_display` succeeds, plots a curve
exactly when its assigned track index is strictly below the number of
tracks, and silently skips every curve whose assigned index is out of
range. -/
theorem update_display_bounds :
    (∀ tracks : List Track, 0 < (setup_display_tracks tracks).length) ∧
    (∀ (st : CanvasState) (w : Well), 0 < st.tracks.length →
      ∃ plots, update_display st w = some plots ∧
        (∀ p ∈ plots, p.2 < st.tracks.length) ∧
        (∀ c ∈ get_curve_names w, st.tracks.length ≤ get_track_for_curve c →
          ∀ i, (c, i) ∉ plots) ∧
        (∀ c ∈ get_curve_names w, get_track_for_curve c < st.tracks.length →
          (c, get_track_for_curve c) ∈ plots)) := by
  constructor
  · intro tracks
    cases tracks <;> simp [setup_display_tracks, default_tracks]
  · intro st w h
    refine ⟨update_display_plots st.tracks (get_curve_names w), ?_, ?_, ?_, ?_⟩
    · simp only [update_display]
      rw [if_neg (by omega)]
    · intro p hp
      obtain ⟨c, _, hf⟩ := List.mem_filterMap.1 hp
      by_cases hlt : get_track_for_curve c < st.tracks.length
      · rw [if_pos hlt] at hf
        cases hf
        exact hlt
      · rw [if_neg hlt] at hf
        cases hf
    · intro c _ hge i hmem
      obtain ⟨c2, _, hf⟩ := List.mem_filterMap.1 hmem
      by_cases hlt : get_track_for_curve c2 < st.tracks.length
      · rw [if_pos hlt] at hf
        obtain ⟨h1, h2⟩ := Prod.mk.injEq .. ▸ (Option.some.inj hf)
        subst h1
        omega
      · rw [if_neg hlt] at hf
        cases hf
    · intro c hc hlt
      exact List.mem_filterMap.2 ⟨c, hc, by rw [if_pos hlt]⟩

/-- Witness for C10: rendering the example well on the default canvas
succeeds. -/
theorem update_display_bounds_witness :
    update_display canvas0 wellGR ≠ none := by
  obtain ⟨plots, hp, _⟩ := update_display_bounds.2 canvas0 wellGR (by decide)
  simp [hp]

/-- C6 counterexample: a session state whose open view text contains `//`
(here the single text `http://x`) does not survive the save/load round
trip: the comment stripper cuts the line inside the JSON string, the
strict parse fails, and `load` reports failure instead of the saved
state. -/
theorem workspace_roundtrip_counterexample :
    workspace_load (workspace_save badWorkspaceState) = none ∧
    workspace_load (workspace_save badWorkspaceState) ≠ some badWorkspaceState := by
  refine ⟨rfl, ?_⟩
  intro hc
  have hnone : workspace_load (workspace_save badWorkspaceState) = none := rfl
  rw [hnone] at hc
  exact Option.noConfusion hc

/-- C6 (amended): for every session state whose serialised JSON body
contains no `//` marker and whose saved file contains no `/*` marker,
saving the workspace state and loading it back reproduces the state
exactly (hence the same open_views and layout theme), even when the file
carries rendered `//` comment header lines, which the reader strips. -/
theorem workspace_roundtrip (st : Json)
    (hblock : hasPair '/' '*' (workspace_save st) = false)
    (hline : hasPair '/' '/' (encodeVal st 0) = false) :
    workspace_load (workspace_save st) = some st := by
  obtain ⟨lines, hlines, hheader⟩ := workspace_header_shape st
  have hsave : workspace_save st = headerOf lines ++ encodeVal st 0 := by
    rw [workspace_save, hheader]
  have hstrip : strip_json_comments (workspace_save st) =
      List.replicate lines.length '\n' ++ encodeVal st 0 := by
    rw [strip_json_comments, blockStripF_id _ _ hblock, hsave]
    exact lineStripF_header lines _ (encodeVal st 0) hlines hline (le_refl _)
  have hskipt : skipWs (strip_json_comments (workspace_save st)) = encodeVal st 0 := by
    rw [hstrip, skipWs_replicate_nl]
    obtain ⟨c, t, hxeq, hgood⟩ := encodeVal_head st 0
    rw [hxeq, skipWs_not_ws _ hgood.1]
  have hfuel : (encodeVal st 0).length <
      (strip_json_comments (workspace_save st)).length + 1 := by
    rw [hstrip]
    simp [List.length_append]
    omega
  have hparse : parseVal ((strip_json_comments (workspace_save st)).length + 1)
      (skipWs (strip_json_comments (workspace_save st))) = some (st, []) := by
    rw [hskipt]
    have h0 := (parse_encode ((strip_json_comments (workspace_save st)).length + 1)).1
      st 0 [] hfuel rfl
    rw [List.append_nil] at h0
    exact h0
  unfold workspace_load
  rw [hparse]
  rfl

set_option maxRecDepth 8192 in
/-- Witness for the amended C6 at a comment-marker-free session state with
one text view and a theme. -/
theorem workspace_roundtrip_witness :
    hasPair '/' '*' (workspace_save goodWorkspaceState) = false ∧
    hasPair '/' '/' (encodeVal goodWorkspaceState 0) = false ∧
    workspace_load (workspace_save goodWorkspaceState) = some goodWorkspaceState :=
  ⟨rfl, rfl, workspace_roundtrip goodWorkspaceState rfl rfl⟩

end Geoflow
